import Mathlib

/-!
# Verification of the clapp command-line argument parser

A shallow embedding of `src/include/clapp.hpp` (clapp v1.1.0) together with
the parts of the repository that are exercised by its tests and README but
whose implementation is not shipped in `src/` (positional options and choice
sets); those parts are modelled from the specification and are marked as such.

Strings are embedded as `List Char` (`Token`).  The templated option wrappers
are embedded at their raw-string instantiation: descriptors store the raw text
value that `OptionWrapper<T>::setValue` receives (for `T = std::string` the
conversion `TypeParser<std::string>::Get` is the identity, so this is exact;
the numeric conversions are orthogonal to every claim below and the boolean
conversion is embedded separately as `boolGet`).
-/

namespace Clapp

/-- A command-line token (a C++ `std::string`), embedded as a list of
characters. -/
abbrev Token := List Char

/-! ## Type conversions (`TypeParser`, clapp.hpp lines 51-77) -/

/-- Embedding of `TypeParser<bool>::Get`:
`value.empty() || value == "1" || value == "true"`. -/
def boolGet (value : Token) : Bool :=
  value.isEmpty || value == ['1'] || value == ['t', 'r', 'u', 'e']

/-- Embedding of the generic `TypeParser<T>::Get` at `T = std::string`:
`T{value}` constructs a copy of the string, i.e. the identity. -/
def stringGet (value : Token) : Token := value

/-! ## `parseOptionWithEqualSign` (clapp.hpp lines 586-598)

`arg.find('=')` locates the first `'='`; the token is split there into the
key (`arg.substr(0, pos)`) and the value (`arg.substr(pos + 1)`).  We embed
the two projections of the returned tuple separately. -/

/-- The key part of `parseOptionWithEqualSign`: everything before the first
`'='`, or the whole token when it has no `'='`. -/
def splitKey : Token → Token
  | [] => []
  | c :: cs => if c = '=' then [] else c :: splitKey cs

/-- The value part of `parseOptionWithEqualSign`: everything after the first
`'='`, or `none` when the token has no `'='`. -/
def splitVal : Token → Option Token
  | [] => none
  | c :: cs => if c = '=' then some cs else splitVal cs

theorem splitKey_of_not_mem {t : Token} (h : ('=' : Char) ∉ t) :
    splitKey t = t := by
  induction t with
  | nil => rfl
  | cons c cs ih =>
    simp only [List.mem_cons, not_or] at h
    simp [splitKey, Ne.symm h.1, ih h.2]

theorem splitVal_of_not_mem {t : Token} (h : ('=' : Char) ∉ t) :
    splitVal t = none := by
  induction t with
  | nil => rfl
  | cons c cs ih =>
    simp only [List.mem_cons, not_or] at h
    simp [splitVal, Ne.symm h.1, ih h.2]

theorem splitKey_append {k v : Token} (h : ('=' : Char) ∉ k) :
    splitKey (k ++ '=' :: v) = k := by
  induction k with
  | nil => simp [splitKey]
  | cons c cs ih =>
    simp only [List.mem_cons, not_or] at h
    simp [splitKey, Ne.symm h.1, ih h.2]

theorem splitVal_append {k v : Token} (h : ('=' : Char) ∉ k) :
    splitVal (k ++ '=' :: v) = some v := by
  induction k with
  | nil => simp [splitVal]
  | cons c cs ih =>
    simp only [List.mem_cons, not_or] at h
    simp [splitVal, Ne.symm h.1, ih h.2]

theorem not_mem_splitKey (t : Token) : ('=' : Char) ∉ splitKey t := by
  induction t with
  | nil => simp [splitKey]
  | cons c cs ih =>
    by_cases hc : c = '='
    · simp [splitKey, hc]
    · simp [splitKey, hc]
      exact ⟨fun h => hc h.symm, ih⟩

theorem splitKey_idem (t : Token) : splitKey (splitKey t) = splitKey t :=
  splitKey_of_not_mem (not_mem_splitKey t)

theorem splitVal_splitKey (t : Token) : splitVal (splitKey t) = none :=
  splitVal_of_not_mem (not_mem_splitKey t)

theorem splitVal_length {t v : Token} (h : splitVal t = some v) :
    v.length < t.length := by
  induction t generalizing v with
  | nil => simp [splitVal] at h
  | cons c cs ih =>
    by_cases hc : c = '='
    · simp [splitVal, hc] at h
      simp [← h]
    · simp [splitVal, hc] at h
      exact Nat.lt_trans (ih h) (by simp)

/-! ## Option descriptors (`ArgumentParser::Option` / `OptionWrapper<T>`,
clapp.hpp lines 103-280), at the raw-string instantiation.

`ref` embeds the caller storage bound by `store()`: `none` means no binding
(`m_ref == nullptr`); `some x` means bound storage currently holding `x`.

`choices` is not present in the v1.1.0 header under `src/`; it is *modelled
from the spec* (see `Opt.choices` below). -/

structure Opt where
  short_option : Token
  long_option : Token
  required : Bool
  set : Bool
  flag : Bool
  overruling : Bool
  has_default_value : Bool
  /-- `OptionWrapper::m_value`, as the raw text stored by `setValue`. -/
  value : Token
  /-- The content of the caller storage bound via `store()` (`m_ref`);
  `none` when unbound. -/
  ref : Option Token
  /-- Modelled from the spec: the `choiceSet` of an option ("optional
  restricted set of acceptable raw values; empty means unrestricted").
  The `choices()` builder appears in the repository's tests and README but
  not in `src/include/clapp.hpp` (v1.1.0); descriptors built from the
  v1.1.0 API always have `choices = []`. -/
  choices : List Token
  deriving DecidableEq

instance : Inhabited Opt :=
  ⟨⟨[], [], false, false, false, false, false, [], none, []⟩⟩

/-- A fresh `OptionWrapper` as constructed by `ArgumentParser::option`
(before any fluent configuration call). -/
def Opt.mk0 (short_option long_option : Token) : Opt :=
  { short_option := short_option
    long_option := long_option
    required := false
    set := false
    flag := false
    overruling := false
    has_default_value := false
    value := []
    ref := none
    choices := [] }

/-- `Option::name()`: the short option, followed by the long option in
parentheses when the latter is non-empty. -/
def Opt.name (o : Opt) : Token :=
  o.short_option ++ (if o.long_option.isEmpty then [] else ' ' :: '(' :: (o.long_option ++ [')']))

/-- Derived notion from the spec: a descriptor is positional exactly when it
has no named key.  The v1.1.0 `ArgumentParser::option` rejects this shape, so
positional descriptors only arise through `Parser.addPositional` below. -/
def Opt.isPositional (o : Opt) : Bool :=
  o.short_option.isEmpty && o.long_option.isEmpty

/-- `OptionWrapper<T>::setValue`: marks the option as set, stores the
converted value, and mirrors it into the bound caller storage when present
(`if (m_ref) *m_ref = m_value`).  At the raw-string instantiation the
conversion (`stringGet`) is the identity. -/
def Opt.setValue (o : Opt) (value : Token) : Opt :=
  { o with set := true
           value := stringGet value
           ref := o.ref.map fun _ => stringGet value }

/-- `OptionWrapper<T>::defaultValue`: marks the option as set and as having a
default, and stores the value.  Note that — unlike `setValue` — it does not
write the bound caller storage. -/
def Opt.defaultValue (o : Opt) (value : Token) : Opt :=
  { o with set := true
           has_default_value := true
           value := value }

/-- Fluent `required()`. -/
def Opt.setRequired (o : Opt) : Opt := { o with required := true }

/-- Fluent `flag()`. -/
def Opt.setFlag (o : Opt) : Opt := { o with flag := true }

/-- Fluent `overruling()`. -/
def Opt.setOverruling (o : Opt) : Opt := { o with overruling := true }

/-- Fluent `store(T& store)`: binds caller storage whose current content is
`x` (the engine never reads it, only overwrites it). -/
def Opt.setStore (o : Opt) (x : Token) : Opt := { o with ref := some x }

/-- Modelled from the spec: the fluent `choices({...})` builder (present in
the repository's tests and README, absent from the v1.1.0 header). -/
def Opt.setChoices (o : Opt) (cs : List Token) : Opt := { o with choices := cs }

/-! ## The parser state (`ArgumentParser`, clapp.hpp lines 282-683) -/

/-- `m_options_map` is an `std::unordered_map<std::string, size_t>`; we embed
it as an association list where insertion conses to the front, so that lookup
(first match) returns the most recent binding — exactly the overwrite
semantics of `operator[]`. -/
def lookupMap : List (Token × Nat) → Token → Option Nat
  | [], _ => none
  | (k, i) :: rest, key => if k = key then some i else lookupMap rest key

/-- The parser's registry and scan state: `m_options`, `m_options_map` and
`m_option_order`.  (`m_argv` and `m_curr_arg` are embedded as the token
stream argument of `scanTokens`; the display-only `m_name` / `m_version` /
`m_description` strings are omitted.) -/
structure Parser where
  options : List Opt
  options_map : List (Token × Nat)
  option_order : List Nat
  deriving DecidableEq

/-- The parser with no declared options. -/
def Parser.empty : Parser := ⟨[], [], []⟩

/-- Embedding of `ArgumentParser::option` (registration, clapp.hpp lines
321-347): pushes the descriptor, rejects the both-keys-empty shape, then
stores each non-empty key in the map (the C++ `operator[]` silently
overwrites an existing binding; here the fresher pair is consed in front and
shadows it). -/
def Parser.addOption (p : Parser) (o : Opt) : Except Unit Parser :=
  let opts := p.options ++ [o]
  if o.short_option.isEmpty ∧ o.long_option.isEmpty then
    .error ()
  else
    let idx := opts.length - 1
    let m1 := if o.short_option.isEmpty then p.options_map
              else (o.short_option, idx) :: p.options_map
    let m2 := if o.long_option.isEmpty then m1
              else (o.long_option, idx) :: m1
    .ok { p with options := opts, options_map := m2 }

/-- Modelled from the spec: registration of a positional option ("given a
display name and a value type, returns a mutable descriptor handle;
positional descriptors are ordered by declaration"; a positional descriptor
has no named keys, so nothing enters the key map).  Positional registration
is exercised by the repository's tests and README but its implementation is
not in `src/include/clapp.hpp` (v1.1.0). -/
def Parser.addPositional (p : Parser) (o : Opt) : Parser :=
  { p with options := p.options ++ [{ o with short_option := [], long_option := [] }] }

/-- Errors raised during parsing, distinguished by the exception type and
message the C++ code produces. -/
inductive Err where
  /-- `std::runtime_error("No more arguments.")` thrown by `consume()`. -/
  | runtimeNoMoreArguments
  /-- `ArgumentParserException("Expected argument after '<name>', but none
  given.")`. -/
  | expectedArgumentAfter (name : Token)
  /-- `ArgumentParserException("Option '<name>' is required.")`. -/
  | optionRequired (name : Token)
  /-- Modelled from the spec: the `InvalidChoiceError` raised when a raw
  value is outside a non-empty choice set (exercised by the repository's
  tests, implementation absent from the v1.1.0 header). -/
  | invalidChoice (name : Token)
  deriving DecidableEq

/-- Applies `setValue` to the descriptor at `idx` and records the match in
`m_option_order` (the `m_option_order.push_back(idx)` at clapp.hpp 641). -/
def applyAt (p : Parser) (idx : Nat) (v : Token) : Parser :=
  { p with options := p.options.set idx ((p.options.getD idx default).setValue v)
           option_order := p.option_order ++ [idx] }

/-- Index of the first list element satisfying `pred` (the `for` loops of
`checkOverrulingOptions` and of the positional search iterate the declared
options in order and act on the first hit). -/
def findFirstIdx (pred : Opt → Bool) : List Opt → Option Nat
  | [] => none
  | o :: rest => if pred o then some 0 else (findFirstIdx pred rest).map (· + 1)

/-- Modelled from the spec: the index of "the next not-yet-filled positional
descriptor in declaration order". -/
def firstUnfilledPositional (opts : List Opt) : Option Nat :=
  findFirstIdx (fun o => o.isPositional && !o.set) opts

/-- Total length measure of a token stream, used for termination of the
scan: splitting `k=v` replaces one token by two strictly shorter ones. -/
def toksMeasure : List Token → Nat
  | [] => 0
  | t :: rest => t.length + 1 + toksMeasure rest

/-- Embedding of `ArgumentParser::parseArguments` (clapp.hpp lines 600-646):
the single left-to-right scan.  The growing `m_argv` vector indexed by
`m_curr_arg` is embedded as the stream of not-yet-visited tokens; the
`m_argv.insert(m_argv.begin() + m_curr_arg + 1, value)` re-injection of the
split-off value becomes consing it onto the stream.

Faithful to the source: each token is split at its first `'='`; the key is
looked up; a flag gets `setValue("")`; a valued option consumes the next
stream token, failing with `runtimeNoMoreArguments` when the stream is
exhausted (`consume()`) and with `expectedArgumentAfter` when the consumed
token is itself a registered key; an unmatched key is skipped.

Modelled from the spec (not in the v1.1.0 header): (a) the choice-set check
— "Validate against `choiceSet` if non-empty; on mismatch fail with a
`InvalidChoiceError`" — performed on the raw value before storing; (b) the
positional branch — an unmatched key is assigned to the first unfilled
positional descriptor when one exists ("Assign to the next not-yet-filled
positional descriptor in declaration order"), and is ignored otherwise
(matching the v1.1.0 source, which ignores every unmatched token). -/
def scanTokens (p : Parser) (toks : List Token) : Except Err Parser :=
  match toks with
  | [] => .ok p
  | t :: rest =>
    match hv : splitVal t with
    | some v =>
      match lookupMap p.options_map (splitKey t) with
      | some idx =>
        if (p.options.getD idx default).flag then
          scanTokens (applyAt p idx []) (v :: rest)
        else if (lookupMap p.options_map v).isSome then
          .error (.expectedArgumentAfter (p.options.getD idx default).name)
        else if ¬(p.options.getD idx default).choices.isEmpty ∧
            v ∉ (p.options.getD idx default).choices then
          .error (.invalidChoice (p.options.getD idx default).name)
        else
          scanTokens (applyAt p idx v) rest
      | none =>
        match firstUnfilledPositional p.options with
        | some j => scanTokens (applyAt p j (splitKey t)) (v :: rest)
        | none => scanTokens p (v :: rest)
    | none =>
      match lookupMap p.options_map (splitKey t) with
      | some idx =>
        if (p.options.getD idx default).flag then
          scanTokens (applyAt p idx []) rest
        else
          match rest with
          | [] => .error .runtimeNoMoreArguments
          | v :: rest' =>
            if (lookupMap p.options_map v).isSome then
              .error (.expectedArgumentAfter (p.options.getD idx default).name)
            else if ¬(p.options.getD idx default).choices.isEmpty ∧
                v ∉ (p.options.getD idx default).choices then
              .error (.invalidChoice (p.options.getD idx default).name)
            else
              scanTokens (applyAt p idx v) rest'
      | none =>
        match firstUnfilledPositional p.options with
        | some j => scanTokens (applyAt p j (splitKey t)) rest
        | none => scanTokens p rest
  termination_by toksMeasure toks
  decreasing_by
  all_goals simp only [toksMeasure]
  all_goals first
    | (have hlt := splitVal_length hv; omega)
    | omega

/-- `parseArguments` starts the scan at `m_curr_arg = 1`, i.e. skipping the
program name at index 0. -/
def parseArguments (p : Parser) (argv : List Token) : Except Err Parser :=
  scanTokens p (argv.drop 1)

/-- `ArgumentParser::checkRequiredOptions` (clapp.hpp lines 648-659): fails
on the first declared option that is required but not set. -/
def checkRequiredOptions (opts : List Opt) : Except Err Unit :=
  match opts.find? (fun o => o.required && !o.set) with
  | some o => .error (.optionRequired o.name)
  | none => .ok ()

/-- `ArgumentParser::checkOverrulingOptions` (clapp.hpp lines 670-682): the
index of the first declared option that is both set and overruling, whose
callback is invoked; `none` when there is no such option. -/
def checkOverrulingOptions (opts : List Opt) : Option Nat :=
  findFirstIdx (fun o => o.set && o.overruling) opts

/-- Outcome of a `parse()` call that did not throw: the returned boolean,
the final parser state, and the indices of the descriptors whose callbacks
were invoked, in invocation order. -/
structure ParseResult where
  ok : Bool
  state : Parser
  invoked : List Nat
  deriving DecidableEq

/-- Embedding of `ArgumentParser::parse` (clapp.hpp lines 292-310):
fewer than two argv entries prints help and returns `false` (no scan, no
callbacks); otherwise the scan runs, then the overruling check (invoking
only the first set-and-overruling option's callback and returning `false`),
then the required check, then the callbacks of all matched options in
invocation order, returning `true`. -/
def parse (p : Parser) (argv : List Token) : Except Err ParseResult :=
  if argv.length < 2 then
    .ok ⟨false, p, []⟩
  else
    match parseArguments p argv with
    | .error e => .error e
    | .ok q =>
      match checkOverrulingOptions q.options with
      | some i => .ok ⟨false, q, [i]⟩
      | none =>
        match checkRequiredOptions q.options with
        | .error e => .error e
        | .ok _ => .ok ⟨true, q, q.option_order⟩

/-! ## Helper lemmas about the auxiliary list functions -/

theorem findFirstIdx_eq_none {pred : Opt → Bool} {l : List Opt}
    (h : findFirstIdx pred l = none) : ∀ x ∈ l, pred x = false := by
  induction l with
  | nil => simp
  | cons o rest ih =>
    intro x hx
    by_cases ho : pred o
    · simp [findFirstIdx, ho] at h
    · simp [findFirstIdx, ho] at h
      rcases List.mem_cons.mp hx with rfl | hx
      · simpa using ho
      · exact ih h x hx

theorem findFirstIdx_eq_some {pred : Opt → Bool} {l : List Opt} {i : Nat}
    (h : findFirstIdx pred l = some i) (d : Opt) :
    i < l.length ∧ pred (l.getD i d) = true := by
  induction l generalizing i with
  | nil => simp [findFirstIdx] at h
  | cons o rest ih =>
    by_cases ho : pred o
    · simp [findFirstIdx, ho] at h
      subst h
      simpa using ho
    · simp [findFirstIdx, ho] at h
      obtain ⟨j, hj, rfl⟩ := h
      obtain ⟨hlt, hp⟩ := ih hj
      refine ⟨by simpa using hlt, ?_⟩
      simpa [List.getD] using hp

theorem exists_findFirstIdx {pred : Opt → Bool} {l : List Opt} {x : Opt}
    (hx : x ∈ l) (hp : pred x = true) : ∃ i, findFirstIdx pred l = some i := by
  induction l with
  | nil => simp at hx
  | cons o rest ih =>
    by_cases ho : pred o
    · exact ⟨0, by simp [findFirstIdx, ho]⟩
    · rcases List.mem_cons.mp hx with rfl | hx
      · exact absurd hp (by simpa using ho)
      · obtain ⟨i, hi⟩ := ih hx
        exact ⟨i + 1, by simp [findFirstIdx, ho, hi]⟩

theorem exists_find? {pred : Opt → Bool} {l : List Opt} {x : Opt}
    (hx : x ∈ l) (hp : pred x = true) : ∃ y, l.find? pred = some y := by
  induction l with
  | nil => simp at hx
  | cons o rest ih =>
    by_cases ho : pred o
    · exact ⟨o, by simp [List.find?_cons, ho]⟩
    · rcases List.mem_cons.mp hx with rfl | hx
      · exact absurd hp (by simpa using ho)
      · obtain ⟨y, hy⟩ := ih hx
        exact ⟨y, by simp [List.find?_cons, ho, hy]⟩

theorem find?_some_pred {pred : Opt → Bool} {l : List Opt} {y : Opt}
    (h : l.find? pred = some y) : pred y = true :=
  List.find?_some h

theorem lookupMap_mem_snd {m : List (Token × Nat)} {k : Token} {i : Nat}
    (h : lookupMap m k = some i) : i ∈ m.map Prod.snd := by
  induction m with
  | nil => simp [lookupMap] at h
  | cons kv rest ih =>
    obtain ⟨k', i'⟩ := kv
    by_cases hk : k' = k
    · simp [lookupMap, hk] at h
      simp [h]
    · simp [lookupMap, hk] at h
      simp [ih h]

/-- `getD` after an update at another index, or out of range, is unchanged;
at an in-range updated index it is the new element. -/
theorem getD_set (l : List Opt) (i j : Nat) (a d : Opt) :
    (l.set i a).getD j d = if i = j ∧ i < l.length then a else l.getD j d := by
  rw [List.getD_eq_getElem?_getD, List.getD_eq_getElem?_getD, List.getElem?_set]
  by_cases hij : i = j
  · subst hij
    by_cases hlen : i < l.length
    · simp [hlen]
    · have hnone : l[i]? = none := List.getElem?_eq_none (by omega)
      simp [hlen, hnone]
  · simp [hij]

/-! ## Step lemmas for `scanTokens`

Each lemma reduces one loop iteration of the scan under explicit hypotheses
about the current token, so that symbolic proofs never unfold the
well-founded recursion by hand. -/

theorem scanTokens_nil (p : Parser) : scanTokens p [] = .ok p := by
  rw [scanTokens.eq_def]

/-- A token containing `'='` is replaced by its key with the value re-injected
as the next token: downstream logic treats `--opt=value` like `--opt value`. -/
theorem scanTokens_split {t v : Token} (p : Parser) (rest : List Token)
    (hv : splitVal t = some v) :
    scanTokens p (t :: rest) = scanTokens p (splitKey t :: v :: rest) := by
  have hkeq : ('=' : Char) ∉ splitKey t := by
    clear hv
    induction t with
    | nil => simp [splitKey]
    | cons c cs ih =>
      by_cases hc : c = '='
      · simp [splitKey, hc]
      · simp [splitKey, hc]
        exact ⟨fun h => hc h.symm, ih⟩
  rw [scanTokens.eq_def]
  conv_rhs => rw [scanTokens.eq_def]
  simp only [splitKey_of_not_mem hkeq]
  split
  · rename_i v1 hv1
    rw [hv] at hv1
    cases hv1
    symm
    split
    · rename_i v2 hv2
      rw [splitVal_of_not_mem hkeq] at hv2
      cases hv2
    · rfl
  · rename_i hv1
    rw [hv] at hv1
    cases hv1

theorem scanTokens_flag {t : Token} {idx : Nat} (p : Parser) (rest : List Token)
    (ht : splitVal t = none)
    (hlook : lookupMap p.options_map (splitKey t) = some idx)
    (hflag : (p.options.getD idx default).flag = true) :
    scanTokens p (t :: rest) = scanTokens (applyAt p idx []) rest := by
  rw [scanTokens.eq_def]
  dsimp only
  split
  · rename_i v1 hv1
    rw [ht] at hv1
    cases hv1
  · simp only [hlook, hflag, if_pos]

theorem scanTokens_valued_nil {t : Token} {idx : Nat} (p : Parser)
    (ht : splitVal t = none)
    (hlook : lookupMap p.options_map (splitKey t) = some idx)
    (hflag : (p.options.getD idx default).flag = false) :
    scanTokens p [t] = .error .runtimeNoMoreArguments := by
  rw [scanTokens.eq_def]
  dsimp only
  split
  · rename_i v1 hv1
    rw [ht] at hv1
    cases hv1
  · simp only [hlook, hflag]
    rfl

theorem scanTokens_valued_optval {t v : Token} {idx : Nat} (p : Parser)
    (rest : List Token) (ht : splitVal t = none)
    (hlook : lookupMap p.options_map (splitKey t) = some idx)
    (hflag : (p.options.getD idx default).flag = false)
    (hv : (lookupMap p.options_map v).isSome = true) :
    scanTokens p (t :: v :: rest) =
      .error (.expectedArgumentAfter (p.options.getD idx default).name) := by
  rw [scanTokens.eq_def]
  dsimp only
  split
  · rename_i v1 hv1
    rw [ht] at hv1
    cases hv1
  · simp only [hlook, hflag, hv]
    rfl

theorem scanTokens_valued_badchoice {t v : Token} {idx : Nat} (p : Parser)
    (rest : List Token) (ht : splitVal t = none)
    (hlook : lookupMap p.options_map (splitKey t) = some idx)
    (hflag : (p.options.getD idx default).flag = false)
    (hv : lookupMap p.options_map v = none)
    (hc : ¬(p.options.getD idx default).choices.isEmpty = true ∧
          v ∉ (p.options.getD idx default).choices) :
    scanTokens p (t :: v :: rest) =
      .error (.invalidChoice (p.options.getD idx default).name) := by
  rw [scanTokens.eq_def]
  dsimp only
  split
  · rename_i v1 hv1
    rw [ht] at hv1
    cases hv1
  · simp only [hlook, hflag, hv, Option.isSome_none, Bool.false_eq_true,
      if_false, if_neg, hc, if_true]
    rfl

theorem scanTokens_valued_ok {t v : Token} {idx : Nat} (p : Parser)
    (rest : List Token) (ht : splitVal t = none)
    (hlook : lookupMap p.options_map (splitKey t) = some idx)
    (hflag : (p.options.getD idx default).flag = false)
    (hv : lookupMap p.options_map v = none)
    (hc : (p.options.getD idx default).choices.isEmpty = true ∨
          v ∈ (p.options.getD idx default).choices) :
    scanTokens p (t :: v :: rest) = scanTokens (applyAt p idx v) rest := by
  rw [scanTokens.eq_def]
  dsimp only
  split
  · rename_i v1 hv1
    rw [ht] at hv1
    cases hv1
  · have hc' : ¬(¬(p.options.getD idx default).choices.isEmpty = true ∧
        v ∉ (p.options.getD idx default).choices) := by
      rcases hc with hc | hc
      · exact fun h => h.1 hc
      · exact fun h => h.2 hc
    simp only [hlook, hflag, hv, Option.isSome_none, Bool.false_eq_true,
      if_false, if_neg hc']

theorem scanTokens_pos {t : Token} {j : Nat} (p : Parser) (rest : List Token)
    (ht : splitVal t = none)
    (hlook : lookupMap p.options_map (splitKey t) = none)
    (hfu : firstUnfilledPositional p.options = some j) :
    scanTokens p (t :: rest) = scanTokens (applyAt p j (splitKey t)) rest := by
  rw [scanTokens.eq_def]
  dsimp only
  split
  · rename_i v1 hv1
    rw [ht] at hv1
    cases hv1
  · simp only [hlook, hfu]

theorem scanTokens_skip {t : Token} (p : Parser) (rest : List Token)
    (ht : splitVal t = none)
    (hlook : lookupMap p.options_map (splitKey t) = none)
    (hfu : firstUnfilledPositional p.options = none) :
    scanTokens p (t :: rest) = scanTokens p rest := by
  rw [scanTokens.eq_def]
  dsimp only
  split
  · rename_i v1 hv1
    rw [ht] at hv1
    cases hv1
  · simp only [hlook, hfu]

/-! ## Stability of the scan

The scan only mutates descriptors through `setValue`, which never clears
`set` and never touches the identity/configuration fields; the key map is
never mutated after declaration.  These facts are bundled in `StableState`. -/

/-- Descriptor `b` is a possible later state of descriptor `a` within one
scan: all configuration fields agree and `set` is monotone. -/
def Opt.stableTo (a b : Opt) : Prop :=
  b.short_option = a.short_option ∧ b.long_option = a.long_option ∧
  b.flag = a.flag ∧ b.required = a.required ∧ b.overruling = a.overruling ∧
  b.has_default_value = a.has_default_value ∧ b.choices = a.choices ∧
  (a.set = true → b.set = true)

theorem Opt.stableTo_refl (a : Opt) : Opt.stableTo a a :=
  ⟨rfl, rfl, rfl, rfl, rfl, rfl, rfl, fun h => h⟩

theorem Opt.stableTo_trans {a b c : Opt} (h1 : Opt.stableTo a b)
    (h2 : Opt.stableTo b c) : Opt.stableTo a c := by
  obtain ⟨a1, a2, a3, a4, a5, a6, a7, a8⟩ := h1
  obtain ⟨b1, b2, b3, b4, b5, b6, b7, b8⟩ := h2
  exact ⟨b1.trans a1, b2.trans a2, b3.trans a3, b4.trans a4, b5.trans a5,
    b6.trans a6, b7.trans a7, fun h => b8 (a8 h)⟩

theorem Opt.setValue_stableTo (o : Opt) (v : Token) :
    Opt.stableTo o (o.setValue v) := by
  refine ⟨rfl, rfl, rfl, rfl, rfl, rfl, rfl, fun _ => ?_⟩
  simp [Opt.setValue]

/-- Parser state `q` is a possible later state of `p` within one scan. -/
def StableState (p q : Parser) : Prop :=
  q.options_map = p.options_map ∧ q.options.length = p.options.length ∧
  ∀ i, Opt.stableTo (p.options.getD i default) (q.options.getD i default)

theorem stableState_refl (p : Parser) : StableState p p :=
  ⟨rfl, rfl, fun i => Opt.stableTo_refl _⟩

theorem applyAt_stableState (p : Parser) (idx : Nat) (v : Token) :
    StableState p (applyAt p idx v) := by
  refine ⟨rfl, List.length_set .., fun i => ?_⟩
  show Opt.stableTo _ ((p.options.set idx ((p.options.getD idx default).setValue v)).getD i default)
  rw [getD_set]
  by_cases hcase : idx = i ∧ idx < p.options.length
  · rw [if_pos hcase]
    rw [hcase.1]
    exact Opt.setValue_stableTo _ v
  · rw [if_neg hcase]
    exact Opt.stableTo_refl _

theorem stepStable {p : Parser} {idx : Nat} {v : Token} {q : Parser}
    (h : StableState (applyAt p idx v) q) : StableState p q := by
  obtain ⟨m1, l1, s1⟩ := applyAt_stableState p idx v
  obtain ⟨m2, l2, s2⟩ := h
  exact ⟨m2.trans m1, l2.trans l1, fun i => Opt.stableTo_trans (s1 i) (s2 i)⟩

/-- Converts the negated conjunction produced by the choice-check `if` into
the disjunction the step lemma `scanTokens_valued_ok` expects. -/
theorem choiceOk_of_not {o : Opt} {v : Token}
    (h : ¬(¬o.choices.isEmpty = true ∧ v ∉ o.choices)) :
    o.choices.isEmpty = true ∨ v ∈ o.choices := by
  by_cases hemp : o.choices.isEmpty = true
  · exact Or.inl hemp
  · exact Or.inr (not_not.mp (fun hv => h ⟨hemp, hv⟩))

/-- One `parseArguments` scan never mutates the key map, never changes the
number of descriptors, preserves every configuration field of every
descriptor, and never clears a `set` mark. -/
theorem scanTokens_stable (p : Parser) (toks : List Token) :
    ∀ q, scanTokens p toks = .ok q → StableState p q := by
  induction p, toks using scanTokens.induct with
  | case1 p =>
    intro q h
    rw [scanTokens_nil] at h
    cases h
    exact stableState_refl _
  | case2 p t rest v hv j hlook hflag ih =>
    intro q h
    rw [scanTokens_split p rest hv,
      scanTokens_flag p (v :: rest) (splitVal_splitKey t)
        (by rw [splitKey_idem]; exact hlook) hflag] at h
    exact stepStable (ih q h)
  | case3 p t rest v hv j hlook hflag hval =>
    intro q h
    rw [scanTokens_split p rest hv,
      scanTokens_valued_optval p rest (splitVal_splitKey t)
        (by rw [splitKey_idem]; exact hlook) (by simpa using hflag) hval] at h
    exact Except.noConfusion h
  | case4 p t rest v hv j hlook hflag hval hc =>
    intro q h
    rw [scanTokens_split p rest hv,
      scanTokens_valued_badchoice p rest (splitVal_splitKey t)
        (by rw [splitKey_idem]; exact hlook) (by simpa using hflag)
        (Option.not_isSome_iff_eq_none.mp hval) hc] at h
    exact Except.noConfusion h
  | case5 p t rest v hv j hlook hflag hval hc ih =>
    intro q h
    rw [scanTokens_split p rest hv,
      scanTokens_valued_ok p rest (splitVal_splitKey t)
        (by rw [splitKey_idem]; exact hlook) (by simpa using hflag)
        (Option.not_isSome_iff_eq_none.mp hval) (choiceOk_of_not hc)] at h
    exact stepStable (ih q h)
  | case6 p t rest v hv hlook j hfu ih =>
    intro q h
    rw [scanTokens_split p rest hv,
      scanTokens_pos p (v :: rest) (splitVal_splitKey t)
        (by rw [splitKey_idem]; exact hlook) hfu, splitKey_idem] at h
    exact stepStable (ih q h)
  | case7 p t rest v hv hlook hfu ih =>
    intro q h
    rw [scanTokens_split p rest hv,
      scanTokens_skip p (v :: rest) (splitVal_splitKey t)
        (by rw [splitKey_idem]; exact hlook) hfu] at h
    exact ih q h
  | case8 p t rest hv j hlook hflag ih =>
    intro q h
    rw [scanTokens_flag p rest hv hlook hflag] at h
    exact stepStable (ih q h)
  | case9 p t hv j hlook hflag =>
    intro q h
    rw [scanTokens_valued_nil p hv hlook (by simpa using hflag)] at h
    exact Except.noConfusion h
  | case10 p t hv j hlook hflag t1 rest hval =>
    intro q h
    rw [scanTokens_valued_optval p rest hv hlook (by simpa using hflag) hval] at h
    exact Except.noConfusion h
  | case11 p t hv j hlook hflag t1 rest hval hc =>
    intro q h
    rw [scanTokens_valued_badchoice p rest hv hlook (by simpa using hflag)
      (Option.not_isSome_iff_eq_none.mp hval) hc] at h
    exact Except.noConfusion h
  | case12 p t hv j hlook hflag t1 rest hval hc ih =>
    intro q h
    rw [scanTokens_valued_ok p rest hv hlook (by simpa using hflag)
      (Option.not_isSome_iff_eq_none.mp hval) (choiceOk_of_not hc)] at h
    exact stepStable (ih q h)
  | case13 p t rest hv hlook j hfu ih =>
    intro q h
    rw [scanTokens_pos p rest hv hlook hfu] at h
    exact stepStable (ih q h)
  | case14 p t rest hv hlook hfu ih =>
    intro q h
    rw [scanTokens_skip p rest hv hlook hfu] at h
    exact ih q h

/-! ## The positional view of the option list (claim C1 machinery)

`posVals` projects, in declaration order, the `(set, value)` state of every
positional descriptor; `fillFirst`/`refFill` are the reference semantics of
the spec sentence "the Nth non-option token in the input is assigned to the
Nth declared positional descriptor". -/

/-- The `(set, value)` pairs of the positional descriptors in declaration
order. -/
def posVals (opts : List Opt) : List (Bool × Token) :=
  opts.filterMap fun o => if o.isPositional then some (o.set, o.value) else none

/-- Fills the first unfilled slot with `t` (identity when every slot is
filled). -/
def fillFirst : List (Bool × Token) → Token → List (Bool × Token)
  | [], _ => []
  | (b, v) :: rest, t => if b then (b, v) :: fillFirst rest t else (true, t) :: rest

/-- Fills slots with the tokens of `ts`, left to right. -/
def refFill : List (Bool × Token) → List Token → List (Bool × Token)
  | l, [] => l
  | l, t :: ts => refFill (fillFirst l t) ts

theorem fillFirst_of_none {opts : List Opt}
    (h : firstUnfilledPositional opts = none) (t : Token) :
    fillFirst (posVals opts) t = posVals opts := by
  induction opts with
  | nil => rfl
  | cons o rest ih =>
    have hpred := findFirstIdx_eq_none h
    have hrest : firstUnfilledPositional rest = none := by
      unfold firstUnfilledPositional
      cases hfi : findFirstIdx (fun o => o.isPositional && !o.set) rest with
      | none => rfl
      | some i =>
        exfalso
        obtain ⟨hlt, hpi⟩ := findFirstIdx_eq_some hfi default
        have hmem : rest.getD i default ∈ o :: rest :=
          List.mem_cons_of_mem o (by
            rw [List.getD_eq_getElem?_getD, List.getElem?_eq_getElem hlt]
            exact List.getElem_mem hlt)
        have hfalse := hpred _ hmem
        rw [hfalse] at hpi
        cases hpi
    by_cases hp : o.isPositional
    · have hset : o.set = true := by
        have := hpred o (List.mem_cons_self o rest)
        simpa [hp] using this
      have h2 : posVals (o :: rest) = (o.set, o.value) :: posVals rest := by
        simp only [posVals, List.filterMap_cons, if_pos hp]
      rw [h2]
      simp only [fillFirst, hset, if_pos]
      rw [ih hrest]
    · have h2 : posVals (o :: rest) = posVals rest := by
        simp only [posVals, List.filterMap_cons, if_neg hp]
      rw [h2, ih hrest]

theorem posVals_set_first {opts : List Opt} {j : Nat}
    (h : firstUnfilledPositional opts = some j) (t : Token) :
    posVals (opts.set j ((opts.getD j default).setValue t)) =
      fillFirst (posVals opts) t := by
  induction opts generalizing j with
  | nil => simp [firstUnfilledPositional, findFirstIdx] at h
  | cons o rest ih =>
    by_cases hpred : o.isPositional && !o.set
    · have hj : j = 0 := by
        simp [firstUnfilledPositional, findFirstIdx, hpred] at h
        omega
      subst hj
      have hp : o.isPositional = true := by
        revert hpred
        cases o.isPositional <;> simp
      have hs : o.set = false := by
        revert hpred
        cases o.set <;> simp
      have hpv : (o.setValue t).isPositional = true := by
        simpa [Opt.isPositional, Opt.setValue] using hp
      have h1 : posVals (o.setValue t :: rest) = (true, t) :: posVals rest := by
        simp only [posVals, List.filterMap_cons, if_pos hpv]
        simp [Opt.setValue, stringGet]
      have h2 : posVals (o :: rest) = (o.set, o.value) :: posVals rest := by
        simp only [posVals, List.filterMap_cons, if_pos hp]
      rw [List.set_cons_zero, List.getD_cons_zero, h1, h2]
      simp [fillFirst, hs]
    · have hj : ∃ j', j = j' + 1 ∧ firstUnfilledPositional rest = some j' := by
        simp [firstUnfilledPositional, findFirstIdx, hpred] at h
        obtain ⟨j', hj', rfl⟩ := h
        exact ⟨j', rfl, by simp [firstUnfilledPositional, hj']⟩
      obtain ⟨j', rfl, hrest⟩ := hj
      rw [List.getD_cons_succ, List.set_cons_succ]
      by_cases hp : o.isPositional
      · have hs : o.set = true := by
          revert hpred
          rw [hp]
          cases o.set <;> simp
        have h1 : posVals (o :: rest.set j' ((rest.getD j' default).setValue t)) =
            (o.set, o.value) :: posVals (rest.set j' ((rest.getD j' default).setValue t)) := by
          simp only [posVals, List.filterMap_cons, if_pos hp]
        have h2 : posVals (o :: rest) = (o.set, o.value) :: posVals rest := by
          simp only [posVals, List.filterMap_cons, if_pos hp]
        rw [h1, h2]
        simp only [fillFirst, hs, if_pos]
        rw [ih hrest]
      · have h1 : posVals (o :: rest.set j' ((rest.getD j' default).setValue t)) =
            posVals (rest.set j' ((rest.getD j' default).setValue t)) := by
          simp only [posVals, List.filterMap_cons, if_neg hp]
        have h2 : posVals (o :: rest) = posVals rest := by
          simp only [posVals, List.filterMap_cons, if_neg hp]
        rw [h1, h2, ih hrest]

theorem posVals_set_named {opts : List Opt} {i : Nat} {v : Token}
    (h : (opts.getD i default).isPositional = false) :
    posVals (opts.set i ((opts.getD i default).setValue v)) = posVals opts := by
  induction opts generalizing i with
  | nil => simp [List.set]
  | cons o rest ih =>
    cases i with
    | zero =>
      have h0 : o.isPositional = false := by simpa using h
      have hsv : (o.setValue v).isPositional = false := by
        simpa [Opt.isPositional, Opt.setValue] using h0
      rw [List.getD_cons_zero, List.set_cons_zero]
      simp [posVals, List.filterMap_cons, hsv, h0]
    | succ i' =>
      have h' : (rest.getD i' default).isPositional = false := by
        simpa using h
      rw [List.getD_cons_succ, List.set_cons_succ]
      by_cases hp : o.isPositional
      · have h1 : posVals (o :: rest.set i' ((rest.getD i' default).setValue v)) =
            (o.set, o.value) :: posVals (rest.set i' ((rest.getD i' default).setValue v)) := by
          simp only [posVals, List.filterMap_cons, if_pos hp]
        have h2 : posVals (o :: rest) = (o.set, o.value) :: posVals rest := by
          simp only [posVals, List.filterMap_cons, if_pos hp]
        rw [h1, h2, ih h']
      · have h1 : posVals (o :: rest.set i' ((rest.getD i' default).setValue v)) =
            posVals (rest.set i' ((rest.getD i' default).setValue v)) := by
          simp only [posVals, List.filterMap_cons, if_neg hp]
        have h2 : posVals (o :: rest) = posVals rest := by
          simp only [posVals, List.filterMap_cons, if_neg hp]
        rw [h1, h2, ih h']

theorem refFill_cons_filled (x : Token) (l : List (Bool × Token))
    (ts : List Token) :
    refFill ((true, x) :: l) ts = (true, x) :: refFill l ts := by
  induction ts generalizing l with
  | nil => rfl
  | cons t ts ih => simp [refFill, fillFirst, ih]

theorem refFill_all_unfilled {l : List (Bool × Token)} {ts : List Token}
    (h : l.map Prod.fst = List.replicate ts.length false) :
    refFill l ts = ts.map fun t => (true, t) := by
  induction ts generalizing l with
  | nil =>
    have : l = [] := by
      cases l with
      | nil => rfl
      | cons a l' => simp [List.replicate] at h
    simp [this, refFill]
  | cons t ts ih =>
    cases l with
    | nil => simp [List.replicate] at h
    | cons a l' =>
      obtain ⟨b, v⟩ := a
      simp only [List.map_cons, List.length_cons, List.replicate, List.cons.injEq] at h
      have hb : b = false := h.1
      subst hb
      have hff : fillFirst ((false, v) :: l') t = (true, t) :: l' := by
        simp [fillFirst]
      show refFill (fillFirst ((false, v) :: l') t) ts = _
      rw [hff, refFill_cons_filled, ih h.2]
      simp

/-! ## Valid interleavings of positional and named tokens (claim C1)

`Interleaves opts0 m toks post` says: the token stream `toks` consists of
non-option tokens (collected, in order, in `post`) interleaved arbitrarily
with valid named-option tokens — flags, and valued options followed by a
well-formed value — judged against the key map `m` and the declared
descriptors `opts0`. -/

inductive Interleaves (opts0 : List Opt) (m : List (Token × Nat)) :
    List Token → List Token → Prop where
  /-- Empty stream. -/
  | nil : Interleaves opts0 m [] []
  /-- A non-option token: matches no registered key (and contains no `'='`,
  so it is not an `opt=value` compound). -/
  | posTok {t : Token} {toks post : List Token}
      (hnm : ('=' : Char) ∉ t) (hmiss : lookupMap m t = none)
      (htl : Interleaves opts0 m toks post) :
      Interleaves opts0 m (t :: toks) (t :: post)
  /-- A flag option token. -/
  | flagTok {k : Token} {i : Nat} {toks post : List Token}
      (hnm : ('=' : Char) ∉ k) (hk : lookupMap m k = some i)
      (hf : (opts0.getD i default).flag = true)
      (htl : Interleaves opts0 m toks post) :
      Interleaves opts0 m (k :: toks) post
  /-- A valued option token followed by its value, the value neither being a
  registered key nor violating the option's choice set. -/
  | valuedTok {k v : Token} {i : Nat} {toks post : List Token}
      (hnm : ('=' : Char) ∉ k) (hk : lookupMap m k = some i)
      (hf : (opts0.getD i default).flag = false)
      (hv : lookupMap m v = none)
      (hc : (opts0.getD i default).choices.isEmpty = true ∨
            v ∈ (opts0.getD i default).choices)
      (htl : Interleaves opts0 m toks post) :
      Interleaves opts0 m (k :: v :: toks) post

theorem Opt.stableTo_isPositional {a b : Opt} (h : Opt.stableTo a b) :
    b.isPositional = a.isPositional := by
  obtain ⟨h1, h2, _⟩ := h
  simp [Opt.isPositional, h1, h2]

/-- The named-descriptor invariants used in the scan/positional
correspondence survive a `setValue` update. -/
theorem inv_applyAt {opts0 : List Opt} {m : List (Token × Nat)} {p : Parser}
    (hinv : ∀ i ∈ m.map Prod.snd,
        (p.options.getD i default).flag = (opts0.getD i default).flag ∧
        (p.options.getD i default).choices = (opts0.getD i default).choices ∧
        (p.options.getD i default).isPositional = false)
    (idx : Nat) (v : Token) :
    ∀ i ∈ m.map Prod.snd,
        ((applyAt p idx v).options.getD i default).flag = (opts0.getD i default).flag ∧
        ((applyAt p idx v).options.getD i default).choices = (opts0.getD i default).choices ∧
        ((applyAt p idx v).options.getD i default).isPositional = false := by
  intro i hi
  obtain ⟨h1, h2, h3⟩ := hinv i hi
  have hst := (applyAt_stableState p idx v).2.2 i
  have hposEq := Opt.stableTo_isPositional hst
  obtain ⟨hs1, hs2, hsf, _, _, _, hsc, _⟩ := hst
  exact ⟨hsf.trans h1, hsc.trans h2, hposEq.trans h3⟩

/-- Scanning a valid interleaving never fails, and its effect on the
positional descriptors is exactly the left-to-right reference fill of the
collected non-option tokens. -/
theorem scan_interleaves {opts0 : List Opt} {m : List (Token × Nat)}
    {toks post : List Token} (hI : Interleaves opts0 m toks post) :
    ∀ p : Parser, p.options_map = m →
    (∀ i ∈ m.map Prod.snd,
        (p.options.getD i default).flag = (opts0.getD i default).flag ∧
        (p.options.getD i default).choices = (opts0.getD i default).choices ∧
        (p.options.getD i default).isPositional = false) →
    ∃ q, scanTokens p toks = .ok q ∧
      posVals q.options = refFill (posVals p.options) post := by
  induction hI with
  | nil =>
    intro p hm hinv
    exact ⟨p, scanTokens_nil p, rfl⟩
  | posTok hnm hmiss htl ih =>
    rename_i t toks post
    intro p hm hinv
    have hsvt : splitVal t = none := splitVal_of_not_mem hnm
    have hskt : splitKey t = t := splitKey_of_not_mem hnm
    have hlook : lookupMap p.options_map (splitKey t) = none := by
      rw [hm, hskt]
      exact hmiss
    cases hfu : firstUnfilledPositional p.options with
    | some j =>
      obtain ⟨q, hq, hpv⟩ := ih (applyAt p j t) hm (inv_applyAt hinv j t)
      refine ⟨q, ?_, ?_⟩
      · rw [scanTokens_pos p toks hsvt hlook hfu, hskt]
        exact hq
      · rw [hpv]
        have hset : posVals (applyAt p j t).options = fillFirst (posVals p.options) t := by
          show posVals (p.options.set j ((p.options.getD j default).setValue t)) = _
          exact posVals_set_first hfu t
        rw [hset]
        rfl
    | none =>
      obtain ⟨q, hq, hpv⟩ := ih p hm hinv
      refine ⟨q, ?_, ?_⟩
      · rw [scanTokens_skip p toks hsvt hlook hfu]
        exact hq
      · rw [hpv]
        have hstep : refFill (posVals p.options) (t :: post) =
            refFill (fillFirst (posVals p.options) t) post := rfl
        rw [hstep, fillFirst_of_none hfu t]
  | flagTok hnm hk hf htl ih =>
    rename_i k i toks post
    intro p hm hinv
    have hsv : splitVal k = none := splitVal_of_not_mem hnm
    have hsk : splitKey k = k := splitKey_of_not_mem hnm
    have hlook : lookupMap p.options_map (splitKey k) = some i := by
      rw [hm, hsk]
      exact hk
    have hmem : i ∈ m.map Prod.snd := lookupMap_mem_snd hk
    obtain ⟨hfl, hch, hpos⟩ := hinv i hmem
    obtain ⟨q, hq, hpv⟩ := ih (applyAt p i []) hm (inv_applyAt hinv i [])
    refine ⟨q, ?_, ?_⟩
    · rw [scanTokens_flag p toks hsv hlook (hfl.trans hf)]
      exact hq
    · have hnamed : posVals (applyAt p i []).options = posVals p.options := by
        show posVals (p.options.set i ((p.options.getD i default).setValue [])) = _
        exact posVals_set_named hpos
      rw [hpv, hnamed]
  | valuedTok hnm hk hf hv hc htl ih =>
    rename_i k v i toks post
    intro p hm hinv
    have hsv : splitVal k = none := splitVal_of_not_mem hnm
    have hsk : splitKey k = k := splitKey_of_not_mem hnm
    have hlook : lookupMap p.options_map (splitKey k) = some i := by
      rw [hm, hsk]
      exact hk
    have hmem : i ∈ m.map Prod.snd := lookupMap_mem_snd hk
    obtain ⟨hfl, hch, hpos⟩ := hinv i hmem
    have hvnone : lookupMap p.options_map v = none := by
      rw [hm]
      exact hv
    have hcOk : (p.options.getD i default).choices.isEmpty = true ∨
        v ∈ (p.options.getD i default).choices := by
      rw [hch]
      exact hc
    obtain ⟨q, hq, hpv⟩ := ih (applyAt p i v) hm (inv_applyAt hinv i v)
    refine ⟨q, ?_, ?_⟩
    · rw [scanTokens_valued_ok p toks hsv hlook (hfl.trans hf) hvnone hcOk]
      exact hq
    · have hnamed : posVals (applyAt p i v).options = posVals p.options := by
        show posVals (p.options.set i ((p.options.getD i default).setValue v)) = _
        exact posVals_set_named hpos
      rw [hpv, hnamed]

/-! ## Claim theorems

Each claim of the specification audit gets exactly one theorem below
(plus, where applicable, a closed counterexample and a closed witness). -/

/-- **C8**: the built-in boolean converter returns `true` iff its input is
`""`, `"1"` or `"true"`; every other string — including `"false"`, `"0"`
and `"no"` — converts to `false`, and the string converter is the identity. -/
theorem c8_bool_and_string_conversion (s : Token) :
    (boolGet s = true ↔ (s = [] ∨ s = ['1'] ∨ s = ['t', 'r', 'u', 'e']))
    ∧ stringGet s = s
    ∧ boolGet ['f', 'a', 'l', 's', 'e'] = false
    ∧ boolGet ['0'] = false
    ∧ boolGet ['n', 'o'] = false := by
  refine ⟨?_, rfl, by decide, by decide, by decide⟩
  simp [boolGet, List.isEmpty_iff, or_assoc]

/-- An option bound to caller storage (initial content `"old"`), as built by
`option<std::string>("-a").store(x)`. -/
def c9opt : Opt := (Opt.mk0 ['-', 'a'] []).setStore ['o', 'l', 'd']

/-- **C9 counterexample**: `defaultValue` changes the option's current value
but does not write the bound caller storage, so after
`option("-a").store(x).defaultValue("new")` the storage still holds `"old"`
while the current value is `"new"` — the claimed invariant "bound storage
equals the option's current value after every mutation (including setting a
default value)" fails. -/
theorem c9_counterexample :
    (c9opt.defaultValue ['n', 'e', 'w']).ref = some ['o', 'l', 'd']
    ∧ (c9opt.defaultValue ['n', 'e', 'w']).value = ['n', 'e', 'w']
    ∧ (c9opt.defaultValue ['n', 'e', 'w']).ref ≠
        some ((c9opt.defaultValue ['n', 'e', 'w']).value) := by
  decide

/-- **C9 (amended)**: `setValue` — the only mutation the scan performs —
synchronously mirrors the new value into the bound caller storage, but
`defaultValue` stores the value and marks the option set *without* touching
the external binding. -/
theorem c9_amended_binding_sync (o : Opt) (v d : Token) :
    ((o.setValue v).ref.isSome = true →
      (o.setValue v).ref = some ((o.setValue v).value))
    ∧ (o.defaultValue d).ref = o.ref
    ∧ (o.defaultValue d).value = d
    ∧ (o.defaultValue d).set = true := by
  refine ⟨?_, rfl, rfl, rfl⟩
  intro h
  cases ho : o.ref with
  | none => simp [Opt.setValue, ho] at h
  | some x => simp [Opt.setValue, ho, stringGet]

/-- **C9 witness**: the amended theorem applied at the concrete bound
option. -/
theorem c9_witness :
    (c9opt.setValue ['z']).ref = some ((c9opt.setValue ['z']).value)
    ∧ (c9opt.defaultValue ['d']).ref = c9opt.ref :=
  ⟨(c9_amended_binding_sync c9opt ['z'] ['d']).1 (by decide),
   (c9_amended_binding_sync c9opt ['z'] ['d']).2.1⟩

/-- A named option `-a` (no long form, no configuration). -/
def c7optA : Opt := Opt.mk0 ['-', 'a'] []

/-- The parser after registering `-a` once. -/
def c7p1 : Parser := ⟨[c7optA], [(['-', 'a'], 0)], []⟩

/-- **C7 counterexample**: registering the key `-a` a second time is *not* a
declaration-time error — `m_options_map[key] = idx` silently rebinds the key
to the newer descriptor (index 1). -/
theorem c7_counterexample :
    Parser.empty.addOption c7optA = .ok c7p1
    ∧ c7p1.addOption c7optA =
        .ok ⟨[c7optA, c7optA], [(['-', 'a'], 1), (['-', 'a'], 0)], []⟩
    ∧ lookupMap [(['-', 'a'], 1), (['-', 'a'], 0)] ['-', 'a'] = some 1 := by
  refine ⟨rfl, rfl, rfl⟩

/-- **C7 (amended)**: registering an option whose short and long keys are
both empty is the only declaration-time error; a duplicate key is accepted
silently, the map entry being rebound so that each key resolves to the most
recently registered descriptor carrying it. -/
theorem c7_amended_registration (p : Parser) (o : Opt) :
    (o.short_option = [] → o.long_option = [] → p.addOption o = .error ())
    ∧ (o.short_option ≠ [] →
        ∃ q, p.addOption o = .ok q
          ∧ lookupMap q.options_map o.short_option = some p.options.length
          ∧ q.options = p.options ++ [o])
    ∧ (o.long_option ≠ [] →
        ∃ q, p.addOption o = .ok q
          ∧ lookupMap q.options_map o.long_option = some p.options.length
          ∧ q.options = p.options ++ [o]) := by
  refine ⟨?_, ?_, ?_⟩
  · intro hs hl
    simp [Parser.addOption, hs, hl]
  · intro hs
    have hse : o.short_option.isEmpty = false := by
      cases hx : o.short_option with
      | nil => exact absurd hx hs
      | cons a l => rfl
    by_cases hl : o.long_option.isEmpty
    · refine ⟨⟨p.options ++ [o],
        (o.short_option, p.options.length) :: p.options_map,
        p.option_order⟩, ?_, ?_, rfl⟩
      · simp [Parser.addOption, hse, hl, List.length_append]
      · simp [lookupMap]
    · refine ⟨⟨p.options ++ [o],
        (o.long_option, p.options.length) ::
          (o.short_option, p.options.length) :: p.options_map,
        p.option_order⟩, ?_, ?_, rfl⟩
      · simp [Parser.addOption, hse, hl, List.length_append]
      · by_cases heq : o.long_option = o.short_option
        · simp [lookupMap, heq]
        · simp [lookupMap, heq]
  · intro hlne
    have hle : o.long_option.isEmpty = false := by
      cases hx : o.long_option with
      | nil => exact absurd hx hlne
      | cons a l => rfl
    by_cases hse : o.short_option.isEmpty
    · refine ⟨⟨p.options ++ [o],
        (o.long_option, p.options.length) :: p.options_map,
        p.option_order⟩, ?_, ?_, rfl⟩
      · simp [Parser.addOption, hse, hle, List.length_append]
      · simp [lookupMap]
    · refine ⟨⟨p.options ++ [o],
        (o.long_option, p.options.length) ::
          (o.short_option, p.options.length) :: p.options_map,
        p.option_order⟩, ?_, ?_, rfl⟩
      · simp [Parser.addOption, hse, hle, List.length_append]
      · simp [lookupMap]

/-- **C7 witness**: re-registering `-a` on a parser that already has it
succeeds and rebinds the key to the new index 1. -/
theorem c7_witness :
    ∃ q, c7p1.addOption c7optA = .ok q
      ∧ lookupMap q.options_map c7optA.short_option = some c7p1.options.length
      ∧ q.options = c7p1.options ++ [c7optA] :=
  (c7_amended_registration c7p1 c7optA).2.1 (by decide)

/-- **C2**: a named option given as the single token `opt=v` is parsed
exactly like the two consecutive tokens `opt`, `v`: the combined token is
split at the first `'='` and the value part is re-injected as the next
token, so both forms continue from identical state, wherever the token
occurs in the stream (the parser state `p` is arbitrary, so this covers any
position of a well-formed input, and in particular both forms store the same
value into the option). -/
theorem c2_equal_sign_equivalence (p : Parser) (opt v : Token)
    (rest : List Token) (h : ('=' : Char) ∉ opt) :
    scanTokens p ((opt ++ '=' :: v) :: rest) = scanTokens p (opt :: v :: rest) := by
  rw [scanTokens_split p rest (splitVal_append h), splitKey_append h]

/-- Parser with the single valued option `--opt`, used by the C2 witness. -/
def c2p : Parser := ⟨[Opt.mk0 ['-', '-', 'o'] []], [(['-', '-', 'o'], 0)], []⟩

/-- **C2 witness**: `--o=1` and `--o 1` scan identically from the concrete
single-option parser. -/
theorem c2_witness :
    scanTokens c2p [['-', '-', 'o'] ++ '=' :: ['1']] =
      scanTokens c2p [['-', '-', 'o'], ['1']] :=
  c2_equal_sign_equivalence c2p ['-', '-', 'o'] ['1'] [] (by decide)

/-- The valued (non-flag) option `-a` and the parser declaring it, used for
claim C4. -/
def c4p : Parser := ⟨[Opt.mk0 ['-', 'a'] []], [(['-', 'a'], 0)], []⟩

/-- **C4 counterexample**: when the valued option `-a` is the last token,
`consume()` throws the generic `std::runtime_error("No more arguments.")`,
which does not name the option and is not the
`ArgumentParserException("Expected argument after ...")` raised when the
following token is a registered key — so the two sub-cases do *not* fail
with the same error kind carrying the option's name. -/
theorem c4_counterexample :
    parse c4p [['p'], ['-', 'a']] = .error .runtimeNoMoreArguments
    ∧ Err.runtimeNoMoreArguments ≠
        Err.expectedArgumentAfter ((c4p.options.getD 0 default).name) := by
  refine ⟨?_, by decide⟩
  simp [parse, parseArguments, scanTokens, splitVal, splitKey, lookupMap, c4p,
    Opt.mk0]

/-- **C4 (amended)**: a valued named option with no following token fails
with the generic `"No more arguments."` runtime error (no option name),
while a following token that is itself a registered key fails with the
parser exception `"Expected argument after ..."` naming the option. -/
theorem c4_amended_missing_value_errors (p : Parser) (k v : Token) (idx : Nat)
    (rest : List Token) (hnm : ('=' : Char) ∉ k)
    (hlook : lookupMap p.options_map k = some idx)
    (hflag : (p.options.getD idx default).flag = false) :
    scanTokens p [k] = .error .runtimeNoMoreArguments
    ∧ ((lookupMap p.options_map v).isSome = true →
        scanTokens p (k :: v :: rest) =
          .error (.expectedArgumentAfter (p.options.getD idx default).name)) := by
  have ht : splitVal k = none := splitVal_of_not_mem hnm
  have hlook' : lookupMap p.options_map (splitKey k) = some idx := by
    rw [splitKey_of_not_mem hnm]
    exact hlook
  exact ⟨scanTokens_valued_nil p ht hlook' hflag,
    fun hv => scanTokens_valued_optval p rest ht hlook' hflag hv⟩

/-- **C4 witness**: both failure modes at the concrete parser — `-a` last,
and `-a` followed by the registered key `-a`. -/
theorem c4_witness :
    scanTokens c4p [['-', 'a']] = .error .runtimeNoMoreArguments
    ∧ scanTokens c4p [['-', 'a'], ['-', 'a']] =
        .error (.expectedArgumentAfter ((c4p.options.getD 0 default).name)) := by
  obtain ⟨h1, h2⟩ := c4_amended_missing_value_errors c4p ['-', 'a'] ['-', 'a'] 0 []
    (by decide) (by decide) (by decide)
  exact ⟨h1, h2 (by decide)⟩

/-- **C3**: if after a completed scan some descriptor is both set and
overruling, `parse` returns the short-circuit outcome `false` and invokes
exactly one callback — that of the first such descriptor in declaration
order — performing no required-option check and no other callback (the
theorem needs no hypothesis about required options, so it applies even when
required options are missing). -/
theorem c3_overruling_short_circuit (p : Parser) (argv : List Token)
    (q : Parser) (hlen : 2 ≤ argv.length)
    (hscan : parseArguments p argv = .ok q)
    (hov : ∃ o ∈ q.options, o.set = true ∧ o.overruling = true) :
    ∃ i, parse p argv = .ok ⟨false, q, [i]⟩
      ∧ (q.options.getD i default).set = true
      ∧ (q.options.getD i default).overruling = true := by
  obtain ⟨o, ho, hos, hoo⟩ := hov
  obtain ⟨i, hi⟩ := @exists_findFirstIdx (fun o => o.set && o.overruling)
    q.options o ho (by simp [hos, hoo])
  obtain ⟨hlt, hp⟩ := findFirstIdx_eq_some hi default
  rw [Bool.and_eq_true] at hp
  refine ⟨i, ?_, hp.1, hp.2⟩
  unfold parse
  rw [if_neg (by omega)]
  simp only [hscan, checkOverrulingOptions, hi]

/-- An overruling flag with a default value (so it is set before any scan)
and a required option that never appears, for the C3 witness. -/
def c3optH : Opt := (((Opt.mk0 ['-', 'h'] []).setFlag).setOverruling).defaultValue []

/-- A required valued option, never matched by the C3 witness input. -/
def c3optR : Opt := (Opt.mk0 ['-', 'r'] []).setRequired

/-- C3 witness parser. -/
def c3p : Parser := ⟨[c3optH, c3optR], [(['-', 'h'], 0), (['-', 'r'], 1)], []⟩

/-- **C3 witness**: on input `p j` (no token matches anything) the scan
leaves the state unchanged; the set-and-overruling `-h` short-circuits
`parse` to `false` with only its own callback invoked, although the
required `-r` is missing. -/
theorem c3_witness :
    ∃ i, parse c3p [['p'], ['j']] = .ok ⟨false, c3p, [i]⟩
      ∧ (c3p.options.getD i default).set = true
      ∧ (c3p.options.getD i default).overruling = true :=
  c3_overruling_short_circuit c3p [['p'], ['j']] c3p (by decide)
    (by simp [parseArguments, scanTokens, splitVal, splitKey, lookupMap,
      firstUnfilledPositional, findFirstIdx, c3p, c3optH, c3optR, Opt.mk0,
      Opt.setFlag, Opt.setOverruling, Opt.setRequired, Opt.defaultValue,
      Opt.isPositional])
    ⟨c3optH, by decide, by decide, by decide⟩

/-- **C5**: (a) when the scan completes, no overruling option fired, and
some declared option is required but still unset (it was absent from the
input and had no default), `parse` raises a missing-required error; (b) the
same situation with the option given a default value instead (so it is set
at declaration time and the scan leaves it untouched) makes `parse` succeed
with the option's current value equal to the default. -/
theorem c5_required_and_default (p : Parser) (argv : List Token) (q : Parser)
    (i : Nat) (o : Opt) (d : Token) :
    (2 ≤ argv.length → parseArguments p argv = .ok q →
      checkOverrulingOptions q.options = none →
      (∃ o' ∈ q.options, o'.required = true ∧ o'.set = false) →
      ∃ nm, parse p argv = .error (.optionRequired nm))
    ∧ (2 ≤ argv.length → parseArguments p argv = .ok q →
        p.options.getD i default = Opt.defaultValue o d →
        q.options.getD i default = p.options.getD i default →
        checkOverrulingOptions q.options = none →
        checkRequiredOptions q.options = .ok () →
        parse p argv = .ok ⟨true, q, q.option_order⟩
          ∧ (q.options.getD i default).value = d
          ∧ (q.options.getD i default).set = true) := by
  constructor
  · intro hlen hscan hov hmiss
    obtain ⟨o', ho', hreq, hset⟩ := hmiss
    obtain ⟨y, hy⟩ := @exists_find? (fun o => o.required && !o.set)
      q.options o' ho' (by simp [hreq, hset])
    refine ⟨y.name, ?_⟩
    unfold parse
    rw [if_neg (by omega)]
    simp only [hscan, hov, checkRequiredOptions, hy]
  · intro hlen hscan hdef huntouched hov hreq
    refine ⟨?_, ?_, ?_⟩
    · unfold parse
      rw [if_neg (by omega)]
      simp only [hscan, hov, hreq]
    · rw [huntouched, hdef]
      rfl
    · rw [huntouched, hdef]
      rfl

/-- Required valued option without default (C5 witness, failing part). -/
def c5optA : Opt := (Opt.mk0 ['-', 'r'] []).setRequired

/-- C5 witness parser without default. -/
def c5pa : Parser := ⟨[c5optA], [(['-', 'r'], 0)], []⟩

/-- The same required option with default value `a` (C5 witness, succeeding
part). -/
def c5optB : Opt := ((Opt.mk0 ['-', 'r'] []).setRequired).defaultValue ['a']

/-- C5 witness parser with default. -/
def c5pb : Parser := ⟨[c5optB], [(['-', 'r'], 0)], []⟩

/-- **C5 witness**: on input `p j` the required `-r` without default makes
`parse` fail with a missing-required error; with default `"a"` the same
input succeeds and the option holds `"a"`. -/
theorem c5_witness :
    (∃ nm, parse c5pa [['p'], ['j']] = .error (.optionRequired nm))
    ∧ (parse c5pb [['p'], ['j']] = .ok ⟨true, c5pb, c5pb.option_order⟩
        ∧ (c5pb.options.getD 0 default).value = ['a']
        ∧ (c5pb.options.getD 0 default).set = true) := by
  constructor
  · exact (c5_required_and_default c5pa [['p'], ['j']] c5pa 0 default []).1
      (by decide)
      (by simp [parseArguments, scanTokens, splitVal, splitKey, lookupMap,
        firstUnfilledPositional, findFirstIdx, c5pa, c5optA, Opt.mk0,
        Opt.setRequired, Opt.isPositional])
      (by decide)
      ⟨c5optA, by decide, by decide, by decide⟩
  · exact (c5_required_and_default c5pb [['p'], ['j']] c5pb 0
      ((Opt.mk0 ['-', 'r'] []).setRequired) ['a']).2
      (by decide)
      (by simp [parseArguments, scanTokens, splitVal, splitKey, lookupMap,
        firstUnfilledPositional, findFirstIdx, c5pb, c5optB, Opt.mk0,
        Opt.setRequired, Opt.defaultValue, Opt.isPositional])
      (by decide) (by decide) (by decide) rfl

/-- The overruling valued option `-a` with default value `d` (set at
declaration time), and its parser, for claim C10. -/
def c10opt : Opt := ((Opt.mk0 ['-', 'a'] []).setOverruling).defaultValue ['d']

/-- C10 counterexample parser. -/
def c10p : Parser := ⟨[c10opt], [(['-', 'a'], 0)], []⟩

/-- **C10 counterexample**: the claim quantifies over *every* argument
vector with at least two entries, but the scan can throw before the
overruling check runs: with the overruling-with-default valued option `-a`
and input `p -a`, `consume()` throws `"No more arguments."`, so `parse`
raises instead of returning `false` and no callback is invoked. -/
theorem c10_counterexample :
    c10opt.overruling = true
    ∧ c10opt.has_default_value = true
    ∧ (2 ≤ [['p'], ['-', 'a']].length)
    ∧ parse c10p [['p'], ['-', 'a']] = .error .runtimeNoMoreArguments := by
  refine ⟨by decide, by decide, by decide, ?_⟩
  simp [parse, parseArguments, scanTokens, splitVal, splitKey, lookupMap,
    c10p, c10opt, Opt.mk0, Opt.setOverruling, Opt.defaultValue]

/-- **C10 (amended)**: giving an option a default value marks it as set at
declaration time, before any parse call; consequently, for a parser whose
descriptor `i` is set and overruling before the scan, every parse call on an
argument vector with at least two entries *whose scan completes without
throwing* returns the short-circuit outcome `false` and invokes exactly the
first set-and-overruling descriptor's callback, even when no input token
matches any of its keys (the scan's `set` marks are monotone, so the
pre-scan mark survives). -/
theorem c10_amended_default_overruling (p : Parser) (argv : List Token)
    (q : Parser) (i : Nat) (o : Opt) (d : Token) :
    (Opt.defaultValue o d).set = true
    ∧ ((p.options.getD i default).set = true →
        (p.options.getD i default).overruling = true →
        2 ≤ argv.length →
        parseArguments p argv = .ok q →
        ∃ j, parse p argv = .ok ⟨false, q, [j]⟩
          ∧ (q.options.getD j default).set = true
          ∧ (q.options.getD j default).overruling = true) := by
  refine ⟨rfl, ?_⟩
  intro hset hovr hlen hscan
  obtain ⟨hmap, hqlen, hstab⟩ := scanTokens_stable p (argv.drop 1) q hscan
  obtain ⟨_, _, _, _, hover, _, _, hmono⟩ := hstab i
  have hqset : (q.options.getD i default).set = true := hmono hset
  have hqovr : (q.options.getD i default).overruling = true := by
    rw [hover, hovr]
  have hqi : i < q.options.length := by
    by_contra hge
    have hd : q.options.getD i default = default := by
      rw [List.getD_eq_getElem?_getD, List.getElem?_eq_none (by omega)]
      rfl
    rw [hd] at hqset
    cases hqset
  have hmem : q.options.getD i default ∈ q.options := by
    have heq : q.options.getD i default = q.options[i] := by
      rw [List.getD_eq_getElem?_getD, List.getElem?_eq_getElem hqi]
      rfl
    rw [heq]
    exact List.getElem_mem hqi
  obtain ⟨j, hj⟩ := @exists_findFirstIdx (fun o => o.set && o.overruling)
    q.options (q.options.getD i default) hmem
    (by simp only [hqset, hqovr, Bool.and_self])
  obtain ⟨hjlt, hjp⟩ := findFirstIdx_eq_some hj default
  rw [Bool.and_eq_true] at hjp
  refine ⟨j, ?_, hjp.1, hjp.2⟩
  unfold parse
  rw [if_neg (by omega)]
  simp only [hscan, checkOverrulingOptions, hj]

/-- The overruling flag `-a` with a default (scan of the witness input
succeeds), for the C10 witness. -/
def c10wopt : Opt := (((Opt.mk0 ['-', 'a'] []).setFlag).setOverruling).defaultValue []

/-- C10 witness parser. -/
def c10wp : Parser := ⟨[c10wopt], [(['-', 'a'], 0)], []⟩

/-- **C10 witness**: the default value marks the option set at declaration;
on input `p j` — where no token matches any key — `parse` returns `false`
and invokes exactly the overruling option's callback. -/
theorem c10_witness :
    (Opt.defaultValue (Opt.mk0 ['-', 'a'] []) ['d']).set = true
    ∧ ∃ j, parse c10wp [['p'], ['j']] = .ok ⟨false, c10wp, [j]⟩
        ∧ (c10wp.options.getD j default).set = true
        ∧ (c10wp.options.getD j default).overruling = true :=
  ⟨(c10_amended_default_overruling c10wp [['p'], ['j']] c10wp 0
      (Opt.mk0 ['-', 'a'] []) ['d']).1,
   (c10_amended_default_overruling c10wp [['p'], ['j']] c10wp 0
      (Opt.mk0 ['-', 'a'] []) ['d']).2
     (by decide) (by decide) (by decide)
     (by simp [parseArguments, scanTokens, splitVal, splitKey, lookupMap,
       firstUnfilledPositional, findFirstIdx, c10wp, c10wopt, Opt.mk0,
       Opt.setFlag, Opt.setOverruling, Opt.defaultValue, Opt.isPositional])⟩

/-- **C6** (choice sets are modelled from the spec; the implementation is
absent from the v1.1.0 header although the repository's tests exercise it):
when a valued named option with a non-empty choice set receives a raw value,
a value outside the set fails the scan with an invalid-choice error, and a
value inside the set is accepted: the scan continues from the state in which
the option is set and stores exactly that value. -/
theorem c6_choice_set_validation (p : Parser) (k v : Token) (idx : Nat)
    (rest : List Token) (hnm : ('=' : Char) ∉ k)
    (hlook : lookupMap p.options_map k = some idx)
    (hidx : idx < p.options.length)
    (hflag : (p.options.getD idx default).flag = false)
    (hvkey : lookupMap p.options_map v = none)
    (hchoice : (p.options.getD idx default).choices ≠ []) :
    (v ∉ (p.options.getD idx default).choices →
      scanTokens p (k :: v :: rest) =
        .error (.invalidChoice (p.options.getD idx default).name))
    ∧ (v ∈ (p.options.getD idx default).choices →
        scanTokens p (k :: v :: rest) = scanTokens (applyAt p idx v) rest
          ∧ ((applyAt p idx v).options.getD idx default).value = v
          ∧ ((applyAt p idx v).options.getD idx default).set = true) := by
  have ht : splitVal k = none := splitVal_of_not_mem hnm
  have hlook' : lookupMap p.options_map (splitKey k) = some idx := by
    rw [splitKey_of_not_mem hnm]
    exact hlook
  have hne : ¬(p.options.getD idx default).choices.isEmpty = true := by
    cases hx : (p.options.getD idx default).choices with
    | nil => exact absurd hx hchoice
    | cons a l => simp
  constructor
  · intro hout
    exact scanTokens_valued_badchoice p rest ht hlook' hflag hvkey ⟨hne, hout⟩
  · intro hin
    refine ⟨scanTokens_valued_ok p rest ht hlook' hflag hvkey (Or.inr hin), ?_, ?_⟩
    · show ((p.options.set idx ((p.options.getD idx default).setValue v)).getD
        idx default).value = v
      rw [getD_set, if_pos ⟨rfl, hidx⟩]
      rfl
    · show ((p.options.set idx ((p.options.getD idx default).setValue v)).getD
        idx default).set = true
      rw [getD_set, if_pos ⟨rfl, hidx⟩]
      rfl

/-- The option `--l` with choice set `{v, w}`, and its parser (C6 witness);
mirrors the repository test `test_option_with_choices`. -/
def c6opt : Opt := (Opt.mk0 ['-', '-', 'l'] []).setChoices [['v'], ['w']]

/-- C6 witness parser. -/
def c6p : Parser := ⟨[c6opt], [(['-', '-', 'l'], 0)], []⟩

/-- **C6 witness**: `--l x` fails with an invalid-choice error; `--l v` is
accepted and stores `v`. -/
theorem c6_witness :
    scanTokens c6p [['-', '-', 'l'], ['x']] =
      .error (.invalidChoice ((c6p.options.getD 0 default).name))
    ∧ (scanTokens c6p [['-', '-', 'l'], ['v']] = scanTokens (applyAt c6p 0 ['v']) []
        ∧ ((applyAt c6p 0 ['v']).options.getD 0 default).value = ['v']
        ∧ ((applyAt c6p 0 ['v']).options.getD 0 default).set = true) := by
  constructor
  · exact (c6_choice_set_validation c6p ['-', '-', 'l'] ['x'] 0 []
      (by decide) (by decide) (by decide) (by decide) (by decide)
      (by decide)).1 (by decide)
  · exact (c6_choice_set_validation c6p ['-', '-', 'l'] ['v'] 0 []
      (by decide) (by decide) (by decide) (by decide) (by decide)
      (by decide)).2 (by decide)

/-- **C1** (positional resolution is modelled from the spec; its
implementation is absent from the v1.1.0 header although the repository's
tests exercise it): for a parser whose key map points only at named
(non-positional) descriptors and whose positional descriptors are all
unfilled, scanning an input consisting of exactly as many non-option tokens
as there are positional descriptors, interleaved arbitrarily with valid
named-option tokens, succeeds and assigns to the positional descriptors, in
declaration order, exactly the non-option tokens in input order: the
projection of the positional `(set, value)` states equals
`post.map (fun t => (true, t))`, i.e. the Nth declared positional descriptor
receives the Nth non-option token. -/
theorem c1_positionals_filled_in_declaration_order {p : Parser}
    {toks post : List Token} (prog : Token)
    (hI : Interleaves p.options p.options_map toks post)
    (hcons : ∀ i ∈ p.options_map.map Prod.snd,
        (p.options.getD i default).isPositional = false)
    (hfill : (posVals p.options).map Prod.fst = List.replicate post.length false) :
    ∃ q, parseArguments p (prog :: toks) = .ok q
      ∧ posVals q.options = post.map fun t => (true, t) := by
  obtain ⟨q, hq, hpv⟩ := scan_interleaves hI p rfl
    (fun i hi => ⟨rfl, rfl, hcons i hi⟩)
  refine ⟨q, ?_, ?_⟩
  · show scanTokens p ((prog :: toks).drop 1) = .ok q
    simpa using hq
  · rw [hpv, refFill_all_unfilled hfill]

/-- The named valued option `-x`, third descriptor of the C1 witness
parser. -/
def c1optX : Opt := Opt.mk0 ['-', 'x'] []

/-- The C1 witness parser: positionals `IN`, `OUT` (declared in that order)
and the named valued option `-x`; mirrors the spec example
`in.txt -x 1 out.txt ⇒ IN="in.txt", OUT="out.txt", x=1`
(tokens shortened to `in`, `-x`, `1`, `out`). -/
def c1p : Parser := ⟨[Opt.mk0 [] [], Opt.mk0 [] [], c1optX], [(['-', 'x'], 2)], []⟩

/-- **C1 witness**: scanning `in -x 1 out` fills `IN` with `in` and `OUT`
with `out`. -/
theorem c1_witness :
    ∃ q, parseArguments c1p
        [['p'], ['i', 'n'], ['-', 'x'], ['1'], ['o', 'u', 't']] = .ok q
      ∧ posVals q.options =
          [['i', 'n'], ['o', 'u', 't']].map fun t => (true, t) := by
  have hI : Interleaves c1p.options c1p.options_map
      [['i', 'n'], ['-', 'x'], ['1'], ['o', 'u', 't']]
      [['i', 'n'], ['o', 'u', 't']] := by
    refine .posTok (by decide) (by decide) ?_
    refine @Interleaves.valuedTok c1p.options c1p.options_map
      ['-', 'x'] ['1'] 2 _ _ (by decide) (by decide) (by decide) (by decide)
      (Or.inl (by decide)) ?_
    exact .posTok (by decide) (by decide) .nil
  exact c1_positionals_filled_in_declaration_order ['p'] hI (by decide) (by decide)

end Clapp






